import Mathlib

/-!
# Verification of the Organizer file-organizing engine

Shallow embedding of `src/Organizer.py`.  A filesystem path is its list of
components (`pathlib.Path.parts`); a filesystem snapshot is the list of its
entries (path plus directory flag).  The content-type inference service
(`mimetypes.guess_type` plus the mapping in `guess_category_by_mime`) is
parameterised by an oracle `Mime`, as the spec directs (§9: "abstract it
behind a capability interface").  Fallible system calls (`mkdir`,
`shutil.move`) are parameterised by a failure oracle `SysOracle` so that the
error-handling paths of the source are expressible.  `rglob`/`iterdir` are
lazy in Python; following the spec (§4.2: "a lazy sequence ... reflecting one
snapshot of the tree"), enumeration is embedded as a snapshot of the starting
state, while the mutation of state during the pass (which the live
`safe_destination` consults) is threaded explicitly through the fold.
-/

namespace Organizer

/-- A path, modelled as its list of components (`pathlib.Path.parts`). -/
abbrev PathT := List String

/-- One filesystem entry: its path and whether it is a directory. -/
structure Entry where
  path : PathT
  isDir : Bool
deriving DecidableEq

/-- A filesystem snapshot: the list of existing entries. -/
abbrev FS := List Entry

/-- `Path.exists()`: some entry (file or directory) sits at `p`. -/
def pexists (fs : FS) (p : PathT) : Bool :=
  fs.any fun e => e.path == p

/-- `target.exists() and target.is_dir()`: a directory entry sits at `p`. -/
def isDirAt (fs : FS) (p : PathT) : Bool :=
  fs.any fun e => e.path == p && e.isDir

/-- Big-endian decimal digits of `n`, with explicit fuel (`n+1` suffices,
since the recursive call divides by 10). -/
def decReprAux : Nat → Nat → List Char
  | 0, _ => []
  | fuel+1, n =>
    if n < 10 then [Nat.digitChar n]
    else decReprAux fuel (n / 10) ++ [Nat.digitChar (n % 10)]

/-- Decimal representation of a natural number: Python's `str(i)` as used by
the f-string `f"{stem} ({i}){suffix}"` in `safe_destination`. -/
def decRepr (n : Nat) : String :=
  ⟨decReprAux (n + 1) n⟩

/-- Python `s.startswith(pre)`. -/
def strStarts (s pre : String) : Bool :=
  pre.data.isPrefixOf s.data

/-- Python `s.lower()` (ASCII case folding, as `str.lower` performs on the
extension strings involved here). -/
def strToLower (s : String) : String :=
  ⟨s.data.map Char.toLower⟩

/-- Python `s.lstrip(".")`: drop every leading dot. -/
def lstripDot (s : String) : String :=
  ⟨s.data.dropWhile fun c => c = '.'⟩

/-- Index of the last `'.'` in a list of characters (Python `name.rfind('.')`,
with `none` for "not found"). -/
def lastDotIdx : List Char → Option Nat
  | [] => none
  | c :: cs =>
    match lastDotIdx cs with
    | some i => some (i + 1)
    | none => if c = '.' then some 0 else none

/-- `pathlib`: `Path.suffix` of a name `n`: `n[i:]` where `i = n.rfind('.')`,
provided `0 < i < len(n) - 1` (a dot is present, so `len n ≥ 1` and the
Python comparison `i < len(n) - 1` is `i + 1 < len n`); otherwise empty. -/
def nameSuffix (n : String) : String :=
  match lastDotIdx n.data with
  | some i => if 0 < i ∧ i + 1 < n.data.length then ⟨n.data.drop i⟩ else ""
  | none => ""

/-- `pathlib`: `Path.stem` of a name `n`: `n[:i]` under the same condition as
`nameSuffix`, otherwise the whole name. -/
def nameStem (n : String) : String :=
  match lastDotIdx n.data with
  | some i => if 0 < i ∧ i + 1 < n.data.length then ⟨n.data.take i⟩ else n
  | none => n

/-- `pathlib`: `Path.name`, the final component. -/
def lastName (p : PathT) : String :=
  p.getLastD ""

/-- The extension-to-category table of the source, in source order. -/
def EXTENSION_CATEGORIES : List (String × String) := [
  ("jpg", "Images"), ("jpeg", "Images"), ("png", "Images"), ("gif", "Images"),
  ("bmp", "Images"), ("webp", "Images"), ("tif", "Images"), ("tiff", "Images"),
  ("svg", "Images"), ("ico", "Images"),
  ("mp4", "Videos"), ("mkv", "Videos"), ("mov", "Videos"), ("avi", "Videos"),
  ("wmv", "Videos"), ("flv", "Videos"), ("webm", "Videos"),
  ("mp3", "Audio"), ("wav", "Audio"), ("flac", "Audio"), ("aac", "Audio"),
  ("ogg", "Audio"), ("m4a", "Audio"),
  ("pdf", "Documents"), ("doc", "Documents"), ("docx", "Documents"),
  ("xls", "Documents"), ("xlsx", "Documents"), ("ppt", "Documents"),
  ("pptx", "Documents"), ("txt", "Documents"), ("md", "Documents"),
  ("rtf", "Documents"), ("odt", "Documents"),
  ("zip", "Archives"), ("tar", "Archives"), ("gz", "Archives"),
  ("bz2", "Archives"), ("7z", "Archives"), ("rar", "Archives"),
  ("py", "Code"), ("js", "Code"), ("ts", "Code"), ("java", "Code"),
  ("c", "Code"), ("cpp", "Code"), ("cs", "Code"), ("go", "Code"),
  ("rb", "Code"), ("rs", "Code"), ("php", "Code"), ("html", "Code"),
  ("css", "Code"), ("json", "Code"), ("xml", "Code"), ("sh", "Code"),
  ("ps1", "Code")]

/-- `EXTENSION_CATEGORIES.get(ext)`. -/
def extLookup (ext : String) : Option String :=
  EXTENSION_CATEGORIES.lookup ext

/-- The `ext` variable of `get_category`: `path.suffix.lower().lstrip(".")`
when the path has a suffix, else `""`. -/
def extOf (p : PathT) : String :=
  let suff := nameSuffix (lastName p)
  if suff ≠ "" then lstripDot (strToLower suff) else ""

/-- The content-type inference oracle: `mimetypes.guess_type(str(path))`. -/
abbrev Mime := PathT → Option String

/-- `guess_category_by_mime` of the source. -/
def guess_category_by_mime (m : Mime) (p : PathT) : String :=
  match m p with
  | some mime =>
    if strStarts mime "image/" then "Images"
    else if strStarts mime "video/" then "Videos"
    else if strStarts mime "audio/" then "Audio"
    else if mime = "application/zip" ∨ mime = "application/x-tar" then
      "Archives"
    else if mime = "application/pdf" ∨ mime = "text/plain" ∨
        mime = "text/html" ∨ mime = "application/msword" then "Documents"
    else "Others"
  | none => "Others"

/-- `get_category` of the source: `(category, extension_folder_name)`.
Python's `ext or "unknown"` is the non-empty test on `ext`. -/
def get_category (m : Mime) (p : PathT) : String × String :=
  let ext := extOf p
  if ext ≠ "" then
    match extLookup ext with
    | some category => (category, ext)
    | none =>
      let category_by_mime := guess_category_by_mime m p
      if category_by_mime ≠ "Others" then
        (category_by_mime, if ext ≠ "" then ext else "unknown")
      else
        ("Others", if ext ≠ "" then ext else "unknown")
  else
    (guess_category_by_mime m p, "no_ext")

/-- The candidate filename `f"{stem} ({i}){suffix}"` of `safe_destination`. -/
def candName (stem suff : String) (i : Nat) : String :=
  stem ++ " (" ++ decRepr i ++ ")" ++ suff

/-- The `while True` loop of `safe_destination`: try `i`, `i+1`, ... and
return the first candidate that does not exist.  The source loop is
unbounded; it is embedded with explicit fuel, and `fs.length + 1` is proved
sufficient (`exists_free_cand`) because the candidate names are pairwise
distinct while the snapshot is finite. -/
def safeLoop (fs : FS) (parent : PathT) (stem suff : String) :
    Nat → Nat → PathT
  | 0, i => parent ++ [candName stem suff i]
  | fuel+1, i =>
    let c := parent ++ [candName stem suff i]
    if pexists fs c then safeLoop fs parent stem suff fuel (i + 1) else c

/-- `safe_destination` of the source. -/
def safe_destination (fs : FS) (dest : PathT) (overwrite : Bool) : PathT :=
  if overwrite || !pexists fs dest then dest
  else
    safeLoop fs dest.dropLast (nameStem (lastName dest))
      (nameSuffix (lastName dest)) (fs.length + 1) 1

/-- The reporting events the pass emits (spec §6; in the source these are the
`print` calls). -/
inductive Event where
  | skippedHidden (p : PathT)
  | skippedOrganized (p : PathT)
  | wouldMove (src dest : PathT)
  | moved (src dest : PathT)
  | moveFailed (src dest : PathT)
deriving DecidableEq

/-- The uncaught failures of a run: the `ValueError` for an invalid target,
and an exception escaping `dest.parent.mkdir` (which the source does not
wrap in `try`). -/
inductive Err where
  | invalidTarget
  | mkdirFailure (d : PathT)
deriving DecidableEq

/-- Failure oracle for the system calls: whether creating a given directory
raises, and whether `shutil.move` of `src` to `dest` raises. -/
structure SysOracle where
  mkdirFail : PathT → Bool
  moveFail : PathT → PathT → Bool

/-- The nonempty initial segments of `d`: the directories
`dest.parent.mkdir(parents=True)` ensures, outermost first. -/
def ancestors (d : PathT) : List PathT :=
  (List.range d.length).map fun k => d.take (k + 1)

/-- `mkdir(parents=True, exist_ok=True)` over a list of directories: an
existing entry is left alone; creating a missing one consults the failure
oracle, and a failure propagates (it is not caught in the source). -/
def mkdirsGo (o : SysOracle) : FS → List PathT → Except Err FS
  | fs, [] => .ok fs
  | fs, a :: rest =>
    if pexists fs a then mkdirsGo o fs rest
    else if o.mkdirFail a then .error (.mkdirFailure a)
    else mkdirsGo o (fs ++ [⟨a, true⟩]) rest

/-- Effect of a successful `shutil.move(src, dest)` on the snapshot: the
entry at `src` disappears and a file appears at `dest`. -/
def moveFS (fs : FS) (src dest : PathT) : FS :=
  (fs.filter fun e => !(e.path == src)) ++ [⟨dest, false⟩]

/-- `move_file` of the source: resolve the destination, stop there in
dry-run mode, otherwise create the parent directories (uncaught on failure)
and move, catching any failure of the move itself. -/
def move_file (o : SysOracle) (fs : FS) (src dest : PathT)
    (dry_run overwrite : Bool) : Except Err (FS × Event) :=
  let dest' := safe_destination fs dest overwrite
  if dry_run then .ok (fs, .wouldMove src dest')
  else
    match mkdirsGo o fs (ancestors dest'.dropLast) with
    | .error e => .error e
    | .ok fs' =>
      if o.moveFail src dest' then .ok (fs', .moveFailed src dest')
      else .ok (moveFS fs' src dest', .moved src dest')

/-- `set(EXTENSION_CATEGORIES.values()).union({...})` of the source, as the
list whose membership is the Python `in`. -/
def categorySet : List String :=
  (EXTENSION_CATEGORIES.map Prod.snd) ++
    ["Documents", "Images", "Videos", "Audio", "Archives", "Code", "Others"]

/-- `p.relative_to(target)`: the components of `p` past `t` when `t` leads
`p`, else `none` (the `except` branch of the source). -/
def relTo (t p : PathT) : Option PathT :=
  if t.isPrefixOf p then some (p.drop t.length) else none

/-- The "already in a category folder" test of `organize_directory`:
top-level files (`p.parent == target`) pass; otherwise the file is skipped
when its first component relative to the target is a category name and it
lies at depth at least 2. -/
def alreadyOrganized (t p : PathT) : Bool :=
  if p.dropLast == t then false
  else
    match relTo t p with
    | some rel =>
      if 2 ≤ rel.length then categorySet.contains (rel.headD "") else false
    | none => false

/-- The parameters of `organize_directory` (verbose only affects printing
and is omitted). -/
structure Params where
  recursive : Bool
  dry_run : Bool
  overwrite : Bool
  skip_hidden : Bool
deriving DecidableEq

/-- The body of the `for p in iterator` loop of `organize_directory`, for a
single entry: directory and skip checks, classification, and the move. -/
def orgStep (o : SysOracle) (m : Mime) (t : PathT) (ps : Params) (fs : FS)
    (e : Entry) : Except Err (FS × List Event) :=
  if e.isDir then .ok (fs, [])
  else if ps.skip_hidden && e.path.any (fun part => strStarts part ".") then
    .ok (fs, [.skippedHidden e.path])
  else if alreadyOrganized t e.path then
    .ok (fs, [.skippedOrganized e.path])
  else
    let cat := get_category m e.path
    let dest := t ++ [cat.1, cat.2, lastName e.path]
    match move_file o fs e.path dest ps.dry_run ps.overwrite with
    | .error err => .error err
    | .ok (fs', ev) => .ok (fs', [ev])

/-- The loop of `organize_directory` over the enumerated entries, threading
the filesystem state and collecting the emitted events. -/
def orgFold (o : SysOracle) (m : Mime) (t : PathT) (ps : Params) :
    FS → List Entry → Except Err (FS × List Event)
  | fs, [] => .ok (fs, [])
  | fs, e :: rest =>
    match orgStep o m t ps fs e with
    | .error err => .error err
    | .ok (fs', evs) =>
      match orgFold o m t ps fs' rest with
      | .error err => .error err
      | .ok (fs'', evs') => .ok (fs'', evs ++ evs')

/-- `target.rglob('*')` / `target.iterdir()` over the snapshot: every entry
strictly below the target (recursive), or the direct children. -/
def enumerate (fs : FS) (t : PathT) (recursive : Bool) : List Entry :=
  if recursive then
    fs.filter fun e => t.isPrefixOf e.path && !(e.path == t)
  else
    fs.filter fun e => t.isPrefixOf e.path && e.path.length == t.length + 1

/-- `organize_directory` of the source: the invalid-target check, then the
loop over the enumeration. -/
def organize_directory (o : SysOracle) (m : Mime) (fs : FS) (t : PathT)
    (ps : Params) : Except Err (FS × List Event) :=
  if isDirAt fs t then orgFold o m t ps fs (enumerate fs t ps.recursive)
  else .error .invalidTarget

/-- The `(source, resolved destination)` decisions of an event sequence. -/
def decisionsOf : List Event → List (PathT × PathT)
  | [] => []
  | .moved s d :: r => (s, d) :: decisionsOf r
  | .wouldMove s d :: r => (s, d) :: decisionsOf r
  | _ :: r => decisionsOf r

/-- The decisions of a run, empty when the run aborted. -/
def runDecisions (r : Except Err (FS × List Event)) : List (PathT × PathT) :=
  match r with
  | .ok (_, evs) => decisionsOf evs
  | .error _ => []

/-- The eligibility filter of the loop: a non-directory entry that is
neither hidden-skipped nor already organized. -/
def eligibleFile (t : PathT) (ps : Params) (e : Entry) : Bool :=
  !e.isDir && !(ps.skip_hidden && e.path.any (fun part => strStarts part ".")) &&
    !alreadyOrganized t e.path

/-- The desired (pre-conflict-resolution) destination of an entry:
`target / category / ext_folder / filename`. -/
def desiredDest (m : Mime) (t : PathT) (e : Entry) : PathT :=
  t ++ [(get_category m e.path).1, (get_category m e.path).2,
    lastName e.path]

end Organizer

namespace Organizer

lemma digitChar_inj {a b : Nat} (ha : a < 10) (hb : b < 10)
    (h : Nat.digitChar a = Nat.digitChar b) : a = b := by
  have key : ∀ x : Fin 10, ∀ y : Fin 10,
      Nat.digitChar x.val = Nat.digitChar y.val → x = y := by decide
  exact congrArg Fin.val (key ⟨a, ha⟩ ⟨b, hb⟩ h)

lemma decReprAux_ne_nil {fuel n : Nat} (h : 0 < fuel) :
    decReprAux fuel n ≠ [] := by
  match fuel with
  | f + 1 =>
    simp only [decReprAux]
    split <;> simp

lemma decReprAux_inj (m : Nat) : ∀ f1 f2 n : Nat, m < f1 → n < f2 →
    decReprAux f1 m = decReprAux f2 n → m = n := by
  induction m using Nat.strong_induction_on with
  | _ m ih =>
    intro f1 f2 n h1 h2 heq
    match f1, h1, f2, h2 with
    | fa + 1, h1, fb + 1, h2 =>
      by_cases hm : m < 10 <;> by_cases hn : n < 10
      · simp only [decReprAux, if_pos hm, if_pos hn, List.cons.injEq] at heq
        exact digitChar_inj hm hn heq.1
      · exfalso
        simp only [decReprAux, if_pos hm, if_neg hn] at heq
        have hne : decReprAux fb (n / 10) ≠ [] := decReprAux_ne_nil (by omega)
        have hpos := List.length_pos.mpr hne
        have hlen := congrArg List.length heq
        simp only [List.length_append, List.length_singleton,
          List.length_cons, List.length_nil] at hlen
        omega
      · exfalso
        simp only [decReprAux, if_neg hm, if_pos hn] at heq
        have hne : decReprAux fa (m / 10) ≠ [] := decReprAux_ne_nil (by omega)
        have hpos := List.length_pos.mpr hne
        have hlen := congrArg List.length heq
        simp only [List.length_append, List.length_singleton,
          List.length_cons, List.length_nil] at hlen
        omega
      · simp only [decReprAux, if_neg hm, if_neg hn] at heq
        obtain ⟨hdiv', hmod'⟩ := List.append_inj' heq rfl
        have hmod : m % 10 = n % 10 :=
          digitChar_inj (Nat.mod_lt _ (by omega)) (Nat.mod_lt _ (by omega))
            (by simpa using hmod')
        have hmlt : m / 10 < m := Nat.div_lt_self (by omega) (by omega)
        have hnlt : n / 10 < n := Nat.div_lt_self (by omega) (by omega)
        have hdiv : m / 10 = n / 10 :=
          ih (m / 10) hmlt fa fb (n / 10) (by omega) (by omega) hdiv'
        omega

lemma decReprData_inj {m n : Nat}
    (h : decReprAux (m + 1) m = decReprAux (n + 1) n) : m = n :=
  decReprAux_inj m (m + 1) (n + 1) n (by omega) (by omega) h

lemma candName_inj {stem suff : String} {i j : Nat}
    (h : candName stem suff i = candName stem suff j) : i = j := by
  have hd := congrArg String.data h
  simp only [candName, String.data_append, List.append_assoc] at hd
  have h1 := List.append_cancel_left hd
  have h2 := List.append_cancel_left h1
  have h3 := List.append_cancel_right h2
  exact decReprData_inj h3

lemma candPath_inj {parent : PathT} {stem suff : String} {i j : Nat}
    (h : parent ++ [candName stem suff i] = parent ++ [candName stem suff j]) :
    i = j := by
  have h1 := List.append_cancel_left h
  simp only [List.cons.injEq] at h1
  exact candName_inj h1.1

lemma pexists_iff {fs : FS} {p : PathT} :
    pexists fs p = true ↔ p ∈ fs.map Entry.path := by
  simp [pexists, List.any_eq_true, beq_iff_eq, List.mem_map]

lemma exists_free_cand (fs : FS) (parent : PathT) (stem suff : String)
    (i : Nat) :
    ∃ k, k < fs.length + 1 ∧
      pexists fs (parent ++ [candName stem suff (i + k)]) = false := by
  by_contra hcon
  push_neg at hcon
  have hall : ∀ k, k < fs.length + 1 →
      pexists fs (parent ++ [candName stem suff (i + k)]) = true := by
    intro k hk
    have hne := hcon k hk
    cases hb : pexists fs (parent ++ [candName stem suff (i + k)]) with
    | false => exact absurd hb hne
    | true => rfl
  have hinj : Set.InjOn (fun k => parent ++ [candName stem suff (i + k)])
      ↑(Finset.range (fs.length + 1)) := by
    intro a _ b _ hab
    have := candPath_inj hab
    omega
  have hsub : (Finset.range (fs.length + 1)).image
        (fun k => parent ++ [candName stem suff (i + k)]) ⊆
      (fs.map Entry.path).toFinset := by
    intro p hp
    simp only [Finset.mem_image, Finset.mem_range] at hp
    obtain ⟨k, hk, rfl⟩ := hp
    simpa [List.mem_toFinset] using pexists_iff.mp (hall k hk)
  have hcard1 : ((Finset.range (fs.length + 1)).image
      (fun k => parent ++ [candName stem suff (i + k)])).card =
      fs.length + 1 := by
    rw [Finset.card_image_of_injOn hinj, Finset.card_range]
  have hcard2 := Finset.card_le_card hsub
  have hcard3 := (fs.map Entry.path).toFinset_card_le
  simp only [List.length_map] at hcard3
  omega

lemma safeLoop_spec (fs : FS) (parent : PathT) (stem suff : String) :
    ∀ fuel i,
      (∃ k, k < fuel ∧
        pexists fs (parent ++ [candName stem suff (i + k)]) = false) →
      ∃ k, k < fuel ∧
        safeLoop fs parent stem suff fuel i =
          parent ++ [candName stem suff (i + k)] ∧
        pexists fs (parent ++ [candName stem suff (i + k)]) = false ∧
        ∀ j, j < k →
          pexists fs (parent ++ [candName stem suff (i + j)]) = true := by
  intro fuel
  induction fuel with
  | zero =>
    rintro i ⟨k, hk, _⟩
    omega
  | succ f ihf =>
    rintro i ⟨k, hk, hfree⟩
    by_cases hex : pexists fs (parent ++ [candName stem suff i]) = true
    · have hk0 : k ≠ 0 := by
        intro h0
        subst h0
        simp only [Nat.add_zero] at hfree
        rw [hex] at hfree
        exact Bool.noConfusion hfree
      have harg : pexists fs
          (parent ++ [candName stem suff (i + 1 + (k - 1))]) = false := by
        have : i + 1 + (k - 1) = i + k := by omega
        rw [this]; exact hfree
      obtain ⟨k', hk', heq, hfree', hmin⟩ :=
        ihf (i + 1) ⟨k - 1, by omega, harg⟩
      refine ⟨k' + 1, by omega, ?_, ?_, ?_⟩
      · have hstep : safeLoop fs parent stem suff (f + 1) i =
            safeLoop fs parent stem suff f (i + 1) := by
          simp only [safeLoop, hex, if_true]
        rw [hstep, heq]
        have : i + 1 + k' = i + (k' + 1) := by omega
        rw [this]
      · have : i + 1 + k' = i + (k' + 1) := by omega
        rw [← this]; exact hfree'
      · intro j hj
        match j with
        | 0 => simpa using hex
        | j' + 1 =>
          have : i + (j' + 1) = i + 1 + j' := by omega
          rw [this]
          exact hmin j' (by omega)
    · have hfalse : pexists fs (parent ++ [candName stem suff i]) = false := by
        cases hb : pexists fs (parent ++ [candName stem suff i]) with
        | false => rfl
        | true => exact absurd hb hex
      refine ⟨0, by omega, ?_, ?_, ?_⟩
      · simp only [safeLoop, hex, if_false, Nat.add_zero]
        rw [if_neg]
        simp [hfalse]
      · simpa using hfalse
      · intro j hj; omega

/-- C1: `safe_destination` returns the desired path unchanged when overwrite
is set or the path is free; otherwise it returns the first candidate
`stem (i)suffix` (i = 1, 2, ...) that does not exist; and with overwrite
false the returned path never refers to an existing entry. -/
theorem C1_safe_destination_spec (fs : FS) (dest : PathT) (overwrite : Bool) :
    ((overwrite = true ∨ pexists fs dest = false) →
      safe_destination fs dest overwrite = dest) ∧
    (overwrite = false → pexists fs dest = true →
      ∃ i, 1 ≤ i ∧
        safe_destination fs dest overwrite = dest.dropLast ++
          [candName (nameStem (lastName dest)) (nameSuffix (lastName dest)) i] ∧
        pexists fs (dest.dropLast ++
          [candName (nameStem (lastName dest)) (nameSuffix (lastName dest)) i])
          = false ∧
        ∀ j, 1 ≤ j → j < i →
          pexists fs (dest.dropLast ++
            [candName (nameStem (lastName dest)) (nameSuffix (lastName dest)) j])
            = true) ∧
    (overwrite = false →
      pexists fs (safe_destination fs dest overwrite) = false) := by
  have hmain : overwrite = false → pexists fs dest = true →
      ∃ i, 1 ≤ i ∧
        safe_destination fs dest overwrite = dest.dropLast ++
          [candName (nameStem (lastName dest)) (nameSuffix (lastName dest)) i] ∧
        pexists fs (dest.dropLast ++
          [candName (nameStem (lastName dest)) (nameSuffix (lastName dest)) i])
          = false ∧
        ∀ j, 1 ≤ j → j < i →
          pexists fs (dest.dropLast ++
            [candName (nameStem (lastName dest)) (nameSuffix (lastName dest)) j])
            = true := by
    intro how hex
    obtain ⟨k, hk, heq, hfree, hmin⟩ :=
      safeLoop_spec fs dest.dropLast (nameStem (lastName dest))
        (nameSuffix (lastName dest)) (fs.length + 1) 1
        (exists_free_cand fs dest.dropLast (nameStem (lastName dest))
          (nameSuffix (lastName dest)) 1)
    refine ⟨1 + k, by omega, ?_, hfree, ?_⟩
    · rw [← heq]
      simp only [safe_destination, how, hex]
      rfl
    · intro j h1 hj
      have : j = 1 + (j - 1) := by omega
      rw [this]
      exact hmin (j - 1) (by omega)
  refine ⟨?_, hmain, ?_⟩
  · intro h
    rcases h with h | h
    · simp [safe_destination, h]
    · simp [safe_destination, h]
  · intro how
    cases hb : pexists fs dest with
    | false =>
      have : safe_destination fs dest overwrite = dest := by
        simp [safe_destination, hb]
      rw [this, hb]
    | true =>
      obtain ⟨i, _, heq, hfree, _⟩ := hmain how hb
      rw [heq]
      exact hfree

/-- Concrete snapshot used by the C1 witness. -/
def fsW : FS := [⟨["r", "a.txt"], false⟩, ⟨["r", "a (1).txt"], false⟩]

/-- Witness for C1 at concrete inputs: an absent desired path is returned
unchanged, and with overwrite false the resolved path never exists. -/
theorem C1_witness :
    safe_destination [] (["r", "a.txt"] : PathT) false = ["r", "a.txt"] ∧
    pexists fsW (safe_destination fsW ["r", "a.txt"] false) = false :=
  ⟨(C1_safe_destination_spec [] ["r", "a.txt"] false).1 (Or.inr (by decide)),
   (C1_safe_destination_spec fsW ["r", "a.txt"] false).2.2 rfl⟩

end Organizer

namespace Organizer

lemma extLookup_empty : extLookup "" = none := by decide

/-- C3: a file whose (lower-cased) extension is a key of the table is
classified by the table entry, with the extension as sub-folder, whatever
the content-type inference oracle returns. -/
theorem C3_table_hit (m : Mime) (p : PathT) (c : String)
    (h : extLookup (extOf p) = some c) :
    get_category m p = (c, extOf p) := by
  have hne : extOf p ≠ "" := by
    intro h0
    rw [h0, extLookup_empty] at h
    exact Option.noConfusion h
  simp only [get_category]
  rw [if_pos hne, h]

/-- Witness for C3: `photo.JPG` classifies as `(Images, jpg)` even under an
oracle that calls everything a video. -/
theorem C3_witness :
    get_category (fun _ => some "video/mp4") ["r", "photo.JPG"] =
      ("Images", "jpg") :=
  C3_table_hit (fun _ => some "video/mp4") ["r", "photo.JPG"] "Images"
    (by decide)

/-- Inference oracle returning no content type. -/
def mimeNone : Mime := fun _ => none

/-- C4 counterexample: `b.xyzqq` has an extension that is no table key and
inference yields no type, yet `get_category` returns the extension itself as
sub-folder, not the marker `unknown`: the `ext or "unknown"` fallback of the
source is unreachable because `ext` is non-empty on that branch. -/
theorem C4_counterexample :
    extLookup (extOf ["r", "b.xyzqq"]) = none ∧
    guess_category_by_mime mimeNone ["r", "b.xyzqq"] = "Others" ∧
    get_category mimeNone ["r", "b.xyzqq"] = ("Others", "xyzqq") ∧
    (get_category mimeNone ["r", "b.xyzqq"]).2 ≠ "unknown" :=
  ⟨by decide, by decide, by decide, by decide⟩

/-- C4 amended: for a path with an extension that is not a table key and
whose content-type inference returns Others (or no type), `get_category`
returns category Others with the lower-cased extension itself as the
sub-folder. -/
theorem C4_amended_ext_kept (m : Mime) (p : PathT)
    (h1 : extOf p ≠ "")
    (h2 : extLookup (extOf p) = none)
    (h3 : guess_category_by_mime m p = "Others") :
    get_category m p = ("Others", extOf p) := by
  simp only [get_category]
  rw [if_pos h1, h2]
  simp [h3, if_pos h1]

/-- Witness for the amended C4 at the concrete input `b.xyzqq`. -/
theorem C4_amended_witness :
    get_category mimeNone ["r", "b.xyzqq"] =
      ("Others", extOf ["r", "b.xyzqq"]) :=
  C4_amended_ext_kept mimeNone ["r", "b.xyzqq"] (by decide) (by decide)
    (by decide)

/-- The hypothesis of C5 on a file name: no dot at all, or only a leading
dot. -/
def noDotOrLeadingOnly (n : String) : Prop :=
  n.data.contains '.' = false ∨
    (∃ rest, n.data = '.' :: rest ∧ rest.contains '.' = false)

lemma lastDotIdx_of_no_dot {cs : List Char} (h : cs.contains '.' = false) :
    lastDotIdx cs = none := by
  induction cs with
  | nil => rfl
  | cons c cs ihc =>
    simp only [List.contains_cons, Bool.or_eq_false_iff, beq_eq_false_iff_ne,
      ne_eq] at h
    simp only [lastDotIdx, ihc h.2]
    rw [if_neg (fun hc => h.1 hc.symm)]

lemma nameSuffix_of_noDot {n : String} (h : noDotOrLeadingOnly n) :
    nameSuffix n = "" := by
  rcases h with h | ⟨rest, hdata, hrest⟩
  · simp [nameSuffix, lastDotIdx_of_no_dot h]
  · simp only [nameSuffix, hdata, lastDotIdx, lastDotIdx_of_no_dot hrest]
    simp

lemma extOf_eq_empty {p : PathT} (h : noDotOrLeadingOnly (lastName p)) :
    extOf p = "" := by
  simp [extOf, nameSuffix_of_noDot h]

lemma strStarts_excl {s a b : String} (ha : strStarts s a = true)
    (hlen : a.data.length = b.data.length) (hne : a ≠ b) :
    strStarts s b = false := by
  cases hb : strStarts s b with
  | false => rfl
  | true =>
    exfalso
    have hpa := List.isPrefixOf_iff_prefix.mp ha
    have hpb := List.isPrefixOf_iff_prefix.mp hb
    have hta := List.prefix_iff_eq_take.mp hpa
    have htb := List.prefix_iff_eq_take.mp hpb
    rw [hlen] at hta
    have : a.data = b.data := hta.trans htb.symm
    apply hne
    cases a; cases b
    exact congrArg String.mk this

/-- C5: a path without extension (no dot in the name, or only a leading
dot) is classified as `(inferredCategory, no_ext)`, where the inference maps
a type beginning `image/` to Images, `video/` to Videos, `audio/` to Audio,
a member of the archive type set to Archives, a member of the document/text
type set to Documents, and anything else (or no type) to Others. -/
theorem C5_no_ext (m : Mime) (p : PathT)
    (h : noDotOrLeadingOnly (lastName p)) :
    get_category m p = (guess_category_by_mime m p, "no_ext") ∧
    (∀ s, m p = some s → strStarts s "image/" = true →
      guess_category_by_mime m p = "Images") ∧
    (∀ s, m p = some s → strStarts s "video/" = true →
      guess_category_by_mime m p = "Videos") ∧
    (∀ s, m p = some s → strStarts s "audio/" = true →
      guess_category_by_mime m p = "Audio") ∧
    (∀ s, m p = some s → (s = "application/zip" ∨ s = "application/x-tar") →
      guess_category_by_mime m p = "Archives") ∧
    (∀ s, m p = some s → (s = "application/pdf" ∨ s = "text/plain" ∨
      s = "text/html" ∨ s = "application/msword") →
      guess_category_by_mime m p = "Documents") ∧
    (∀ s, m p = some s → strStarts s "image/" = false →
      strStarts s "video/" = false → strStarts s "audio/" = false →
      ¬(s = "application/zip" ∨ s = "application/x-tar") →
      ¬(s = "application/pdf" ∨ s = "text/plain" ∨ s = "text/html" ∨
        s = "application/msword") →
      guess_category_by_mime m p = "Others") ∧
    (m p = none → guess_category_by_mime m p = "Others") := by
  refine ⟨?_, ?_, ?_, ?_, ?_, ?_, ?_, ?_⟩
  · simp [get_category, extOf_eq_empty h]
  · intro s hmp him
    simp [guess_category_by_mime, hmp, him]
  · intro s hmp hvid
    have him : strStarts s "image/" = false :=
      strStarts_excl hvid rfl (by decide)
    simp [guess_category_by_mime, hmp, him, hvid]
  · intro s hmp haud
    have him : strStarts s "image/" = false :=
      strStarts_excl haud rfl (by decide)
    have hvid : strStarts s "video/" = false :=
      strStarts_excl haud rfl (by decide)
    simp [guess_category_by_mime, hmp, him, hvid, haud]
  · rintro s hmp (rfl | rfl) <;> simp [guess_category_by_mime, hmp] <;> decide
  · rintro s hmp (rfl | rfl | rfl | rfl) <;>
      simp [guess_category_by_mime, hmp] <;> decide
  · intro s hmp him hvid haud harc hdoc
    simp only [guess_category_by_mime, hmp, him, hvid, haud]
    rw [if_neg harc, if_neg hdoc]
    simp [him, hvid, haud]
  · intro hmp
    simp [guess_category_by_mime, hmp]

/-- Witness for C5: `notes` (no extension) with a `text/plain` oracle is
classified to Documents under sub-folder `no_ext`. -/
theorem C5_witness :
    get_category (fun _ => some "text/plain") ["r", "notes"] =
      (guess_category_by_mime (fun _ => some "text/plain") ["r", "notes"],
        "no_ext") ∧
    guess_category_by_mime (fun _ => some "text/plain") ["r", "notes"] =
      "Documents" :=
  ⟨(C5_no_ext (fun _ => some "text/plain") ["r", "notes"]
      (Or.inl (by decide))).1,
   (C5_no_ext (fun _ => some "text/plain") ["r", "notes"]
      (Or.inl (by decide))).2.2.2.2.2.1 "text/plain" rfl
      (Or.inr (Or.inl rfl))⟩

end Organizer

namespace Organizer

lemma relTo_append (t l : PathT) : relTo t (t ++ l) = some l := by
  have hpre : t.isPrefixOf (t ++ l) = true :=
    List.isPrefixOf_iff_prefix.mpr (List.prefix_append t l)
  simp [relTo, hpre, List.drop_left]

lemma alreadyOrganized_top (t : PathT) (n : String) :
    alreadyOrganized t (t ++ [n]) = false := by
  simp [alreadyOrganized]

lemma alreadyOrganized_deep {t p : PathT} {c : String} {rest : PathT}
    (hrel : relTo t p = some (c :: rest)) (hrest : rest ≠ [])
    (hc : categorySet.contains c = true) :
    alreadyOrganized t p = true := by
  have hpre : t.isPrefixOf p = true := by
    by_cases hb : t.isPrefixOf p = true
    · exact hb
    · rw [relTo, if_neg (by simpa using hb)] at hrel
      exact Option.noConfusion hrel
  obtain ⟨u, rfl⟩ := List.isPrefixOf_iff_prefix.mp hpre
  have hu : u = c :: rest := by
    rw [relTo_append t u] at hrel
    exact Option.some.inj hrel
  subst hu
  have hlend : ((t ++ c :: rest).dropLast).length = t.length + rest.length := by
    rw [List.length_dropLast, List.length_append]
    simp
  have hne : ((t ++ c :: rest).dropLast == t) = false := by
    apply beq_eq_false_iff_ne.mpr
    intro he
    have hlen2 := congrArg List.length he
    rw [hlend] at hlen2
    have h0 : rest.length = 0 := by omega
    exact hrest (List.length_eq_zero.mp h0)
  have hcond : ¬(((t ++ c :: rest).dropLast == t) = true) := by
    rw [hne]
    exact Bool.false_ne_true
  have h2 : 2 ≤ (c :: rest).length := by
    have := List.length_pos.mpr hrest
    simp only [List.length_cons]
    omega
  rw [alreadyOrganized, if_neg hcond, relTo_append t (c :: rest)]
  show (if 2 ≤ (c :: rest).length then
    categorySet.contains ((c :: rest).headD "") else false) = true
  rw [if_pos h2]
  simpa using hc

lemma move_file_ok_event {o : SysOracle} {fs : FS} {src dest : PathT}
    {dry ow : Bool} {fs' : FS} {ev : Event}
    (h : move_file o fs src dest dry ow = .ok (fs', ev)) :
    ev = .wouldMove src (safe_destination fs dest ow) ∨
    ev = .moveFailed src (safe_destination fs dest ow) ∨
    ev = .moved src (safe_destination fs dest ow) := by
  unfold move_file at h
  by_cases hd : dry = true
  · rw [if_pos hd] at h
    simp only [Except.ok.injEq, Prod.mk.injEq] at h
    exact Or.inl h.2.symm
  · rw [if_neg hd] at h
    cases hmk : mkdirsGo o fs
        (ancestors (safe_destination fs dest ow).dropLast) with
    | error e =>
      rw [hmk] at h
      exact Except.noConfusion h
    | ok fs1 =>
      rw [hmk] at h
      dsimp only at h
      by_cases hmf : o.moveFail src (safe_destination fs dest ow) = true
      · rw [if_pos hmf] at h
        simp only [Except.ok.injEq, Prod.mk.injEq] at h
        exact Or.inr (Or.inl h.2.symm)
      · rw [if_neg hmf] at h
        simp only [Except.ok.injEq, Prod.mk.injEq] at h
        exact Or.inr (Or.inr h.2.symm)

lemma orgStep_srcs {o : SysOracle} {m : Mime} {t : PathT} {ps : Params}
    {fs : FS} {e : Entry} {fs' : FS} {evs : List Event}
    (h : orgStep o m t ps fs e = .ok (fs', evs)) (s d : PathT)
    (hmem : Event.moved s d ∈ evs ∨ Event.wouldMove s d ∈ evs) :
    s = e.path ∧ alreadyOrganized t e.path = false ∧
      (ps.skip_hidden && e.path.any fun part => strStarts part ".") = false := by
  unfold orgStep at h
  by_cases hdir : e.isDir = true
  · rw [if_pos (by simpa using hdir)] at h
    simp only [Except.ok.injEq, Prod.mk.injEq] at h
    rcases hmem with hm | hm <;> rw [← h.2] at hm <;> simp at hm
  · rw [if_neg (by simpa using hdir)] at h
    by_cases hhid :
        (ps.skip_hidden && e.path.any fun part => strStarts part ".") = true
    · rw [if_pos (by simpa using hhid)] at h
      simp only [Except.ok.injEq, Prod.mk.injEq] at h
      rcases hmem with hm | hm <;> rw [← h.2] at hm <;> simp at hm
    · rw [if_neg (by simpa using hhid)] at h
      by_cases horg : alreadyOrganized t e.path = true
      · rw [if_pos (by simpa using horg)] at h
        simp only [Except.ok.injEq, Prod.mk.injEq] at h
        rcases hmem with hm | hm <;> rw [← h.2] at hm <;> simp at hm
      · rw [if_neg (by simpa using horg)] at h
        dsimp only at h
        cases hmv : move_file o fs e.path
            (t ++ [(get_category m e.path).1, (get_category m e.path).2,
              lastName e.path]) ps.dry_run ps.overwrite with
        | error err =>
          rw [hmv] at h
          exact Except.noConfusion h
        | ok pr =>
          obtain ⟨fs1, ev⟩ := pr
          rw [hmv] at h
          dsimp only at h
          simp only [Except.ok.injEq, Prod.mk.injEq] at h
          obtain ⟨-, hevs⟩ := h
          subst hevs
          have hev := move_file_ok_event hmv
          refine ⟨?_, by simpa using horg, by simpa using hhid⟩
          rcases hev with he | he | he <;> subst he <;>
            rcases hmem with hm | hm <;>
            simp only [List.mem_singleton, Event.wouldMove.injEq,
              Event.moved.injEq, Event.moveFailed.injEq] at hm <;>
            first
            | exact hm.1
            | exact absurd hm (by simp)

end Organizer

namespace Organizer

lemma orgFold_srcs {o : SysOracle} {m : Mime} {t : PathT} {ps : Params} :
    ∀ (entries : List Entry) (fs st : FS) (evs : List Event),
      orgFold o m t ps fs entries = .ok (st, evs) → ∀ s d : PathT,
      (Event.moved s d ∈ evs ∨ Event.wouldMove s d ∈ evs) →
      alreadyOrganized t s = false ∧
        (ps.skip_hidden && s.any fun part => strStarts part ".") = false := by
  intro entries
  induction entries with
  | nil =>
    intro fs st evs h s d hmem
    simp only [orgFold, Except.ok.injEq, Prod.mk.injEq] at h
    rcases hmem with hm | hm <;> rw [← h.2] at hm <;> simp at hm
  | cons e rest ih =>
    intro fs st evs h s d hmem
    simp only [orgFold] at h
    cases hstep : orgStep o m t ps fs e with
    | error err =>
      rw [hstep] at h
      exact Except.noConfusion h
    | ok pr =>
      obtain ⟨fs1, evs1⟩ := pr
      rw [hstep] at h
      dsimp only at h
      cases hrest : orgFold o m t ps fs1 rest with
      | error err =>
        rw [hrest] at h
        exact Except.noConfusion h
      | ok pr2 =>
        obtain ⟨st2, evs2⟩ := pr2
        rw [hrest] at h
        dsimp only at h
        simp only [Except.ok.injEq, Prod.mk.injEq] at h
        obtain ⟨h1, h2⟩ := h
        subst h1
        subst h2
        rcases hmem with hm | hm <;> rw [List.mem_append] at hm
        · rcases hm with hm | hm
          · have hs := orgStep_srcs hstep s d (Or.inl hm)
            rw [hs.1]
            exact ⟨hs.2.1, hs.2.2⟩
          · exact ih fs1 st2 evs2 hrest s d (Or.inl hm)
        · rcases hm with hm | hm
          · have hs := orgStep_srcs hstep s d (Or.inr hm)
            rw [hs.1]
            exact ⟨hs.2.1, hs.2.2⟩
          · exact ih fs1 st2 evs2 hrest s d (Or.inr hm)

/-- C2: a discovered file whose first component relative to the root is a
category name and which lies at depth at least 2 is skipped with the state
untouched; the already-organized check never fires for a top-level path;
and a file at `root/Images/jpg/photo.jpg` is never a move source. -/
theorem C2_already_organized :
    (∀ (o : SysOracle) (m : Mime) (t : PathT) (ps : Params) (fs : FS)
        (e : Entry) (c : String) (rest : PathT),
      e.isDir = false →
      relTo t e.path = some (c :: rest) → rest ≠ [] →
      categorySet.contains c = true →
      (ps.skip_hidden && e.path.any fun part => strStarts part ".") = false →
      orgStep o m t ps fs e = .ok (fs, [.skippedOrganized e.path])) ∧
    (∀ (t : PathT) (n : String), alreadyOrganized t (t ++ [n]) = false) ∧
    (∀ (o : SysOracle) (m : Mime) (fs : FS) (t : PathT) (ps : Params)
        (st : FS) (evs : List Event) (s d : PathT),
      organize_directory o m fs t ps = .ok (st, evs) →
      (Event.moved s d ∈ evs ∨ Event.wouldMove s d ∈ evs) →
      s ≠ t ++ ["Images", "jpg", "photo.jpg"]) := by
  refine ⟨?_, alreadyOrganized_top, ?_⟩
  · intro o m t ps fs e c rest hdir hrel hrest hc hhid
    have horg := alreadyOrganized_deep hrel hrest hc
    unfold orgStep
    rw [if_neg (by rw [hdir]; exact Bool.false_ne_true),
      if_neg (by rw [hhid]; exact Bool.false_ne_true), if_pos horg]
  · intro o m fs t ps st evs s d hrun hmem heq
    subst heq
    unfold organize_directory at hrun
    by_cases hv : isDirAt fs t = true
    · rw [if_pos hv] at hrun
      have hsrc := orgFold_srcs _ fs st evs hrun _ d hmem
      have hdeep : alreadyOrganized t
          (t ++ ["Images", "jpg", "photo.jpg"]) = true :=
        alreadyOrganized_deep (relTo_append t _) (by simp) (by decide)
      rw [hsrc.1] at hdeep
      exact Bool.noConfusion hdeep
    · rw [if_neg hv] at hrun
      exact Except.noConfusion hrun

/-- System-call oracle where nothing fails. -/
def oNone : SysOracle := ⟨fun _ => false, fun _ _ => false⟩

/-- Concrete snapshot with a top-level `a.jpg` and a nested `sub/a.jpg`. -/
def fs6 : FS := [⟨["r"], true⟩, ⟨["r", "a.jpg"], false⟩, ⟨["r", "sub"], true⟩,
  ⟨["r", "sub", "a.jpg"], false⟩]

/-- Witness for C2 at concrete inputs: a file nested in `Images/jpg` is
skipped (state untouched), a top-level path is never organized-skipped, and
the C2 move-source conclusion holds on a concrete dry run. -/
theorem C2_witness :
    orgStep oNone mimeNone ["r"] ⟨true, true, false, true⟩ fs6
        ⟨["r", "Images", "jpg", "photo.jpg"], false⟩ =
      .ok (fs6, [.skippedOrganized ["r", "Images", "jpg", "photo.jpg"]]) ∧
    alreadyOrganized ["r"] (["r"] ++ ["a.jpg"]) = false ∧
    (["r", "a.jpg"] : PathT) ≠ ["r"] ++ ["Images", "jpg", "photo.jpg"] :=
  ⟨C2_already_organized.1 oNone mimeNone ["r"] ⟨true, true, false, true⟩ fs6
      ⟨["r", "Images", "jpg", "photo.jpg"], false⟩ "Images"
      ["jpg", "photo.jpg"] rfl (by decide) (by decide) (by decide)
      (by decide),
   C2_already_organized.2.1 ["r"] "a.jpg",
   C2_already_organized.2.2 oNone mimeNone fs6 ["r"] ⟨true, true, false, true⟩
      fs6
      [.wouldMove ["r", "a.jpg"] ["r", "Images", "jpg", "a.jpg"],
       .wouldMove ["r", "sub", "a.jpg"] ["r", "Images", "jpg", "a.jpg"]]
      ["r", "a.jpg"] ["r", "Images", "jpg", "a.jpg"] rfl
      (Or.inr (by decide))⟩

end Organizer

namespace Organizer

lemma orgStep_no_hidden {o : SysOracle} {m : Mime} {t : PathT} {ps : Params}
    {fs : FS} {e : Entry} {fs' : FS} {evs : List Event}
    (hsh : ps.skip_hidden = false)
    (h : orgStep o m t ps fs e = .ok (fs', evs)) (p : PathT) :
    Event.skippedHidden p ∉ evs := by
  unfold orgStep at h
  by_cases hdir : e.isDir = true
  · rw [if_pos (by simpa using hdir)] at h
    simp only [Except.ok.injEq, Prod.mk.injEq] at h
    rw [← h.2]
    simp
  · rw [if_neg (by simpa using hdir)] at h
    rw [if_neg (by rw [hsh]; simp)] at h
    by_cases horg : alreadyOrganized t e.path = true
    · rw [if_pos horg] at h
      simp only [Except.ok.injEq, Prod.mk.injEq] at h
      rw [← h.2]
      simp
    · rw [if_neg horg] at h
      dsimp only at h
      cases hmv : move_file o fs e.path
          (t ++ [(get_category m e.path).1, (get_category m e.path).2,
            lastName e.path]) ps.dry_run ps.overwrite with
      | error err =>
        rw [hmv] at h
        exact Except.noConfusion h
      | ok pr =>
        obtain ⟨fs1, ev⟩ := pr
        rw [hmv] at h
        dsimp only at h
        simp only [Except.ok.injEq, Prod.mk.injEq] at h
        rw [← h.2]
        have hev := move_file_ok_event hmv
        rcases hev with he | he | he <;> subst he <;> simp

lemma orgFold_no_hidden {o : SysOracle} {m : Mime} {t : PathT} {ps : Params}
    (hsh : ps.skip_hidden = false) :
    ∀ (entries : List Entry) (fs st : FS) (evs : List Event),
      orgFold o m t ps fs entries = .ok (st, evs) →
      ∀ p, Event.skippedHidden p ∉ evs := by
  intro entries
  induction entries with
  | nil =>
    intro fs st evs h p
    simp only [orgFold, Except.ok.injEq, Prod.mk.injEq] at h
    rw [← h.2]
    simp
  | cons e rest ih =>
    intro fs st evs h p
    simp only [orgFold] at h
    cases hstep : orgStep o m t ps fs e with
    | error err =>
      rw [hstep] at h
      exact Except.noConfusion h
    | ok pr =>
      obtain ⟨fs1, evs1⟩ := pr
      rw [hstep] at h
      dsimp only at h
      cases hrest : orgFold o m t ps fs1 rest with
      | error err =>
        rw [hrest] at h
        exact Except.noConfusion h
      | ok pr2 =>
        obtain ⟨st2, evs2⟩ := pr2
        rw [hrest] at h
        dsimp only at h
        simp only [Except.ok.injEq, Prod.mk.injEq] at h
        rw [← h.2]
        rw [List.mem_append]
        push_neg
        exact ⟨orgStep_no_hidden hsh hstep p, ih fs1 st2 evs2 hrest p⟩

/-- C9: with skip-hidden enabled, a discovered file having a component that
begins with a dot is skipped with the state untouched and only the skip
event reported; with skip-hidden disabled, no run ever emits a hidden-skip
event; and with skip-hidden enabled no moved or would-move source has a
hidden component. -/
theorem C9_hidden :
    (∀ (o : SysOracle) (m : Mime) (t : PathT) (ps : Params) (fs : FS)
        (e : Entry),
      e.isDir = false → ps.skip_hidden = true →
      (e.path.any fun part => strStarts part ".") = true →
      orgStep o m t ps fs e = .ok (fs, [.skippedHidden e.path])) ∧
    (∀ (o : SysOracle) (m : Mime) (t : PathT) (ps : Params)
        (entries : List Entry) (fs st : FS) (evs : List Event),
      ps.skip_hidden = false →
      orgFold o m t ps fs entries = .ok (st, evs) →
      ∀ p, Event.skippedHidden p ∉ evs) ∧
    (∀ (o : SysOracle) (m : Mime) (t : PathT) (ps : Params)
        (entries : List Entry) (fs st : FS) (evs : List Event) (s d : PathT),
      ps.skip_hidden = true →
      orgFold o m t ps fs entries = .ok (st, evs) →
      (Event.moved s d ∈ evs ∨ Event.wouldMove s d ∈ evs) →
      (s.any fun part => strStarts part ".") = false) := by
  refine ⟨?_, ?_, ?_⟩
  · intro o m t ps fs e hdir hsh hany
    unfold orgStep
    rw [if_neg (by rw [hdir]; exact Bool.false_ne_true),
      if_pos (by rw [hsh, hany]; rfl)]
  · intro o m t ps entries fs st evs hsh h p
    exact orgFold_no_hidden hsh entries fs st evs h p
  · intro o m t ps entries fs st evs s d hsh h hmem
    have := (orgFold_srcs entries fs st evs h s d hmem).2
    rw [hsh] at this
    simpa using this

/-- Witness for C9 at concrete inputs: `.hidden.txt` is skip-reported, an
empty no-skip run emits no hidden events, and the dry fs6 run's first moved
source has no hidden component. -/
theorem C9_witness :
    orgStep oNone mimeNone ["r"] ⟨true, true, false, true⟩ fs6
        ⟨["r", ".hidden.txt"], false⟩ =
      .ok (fs6, [.skippedHidden ["r", ".hidden.txt"]]) ∧
    Event.skippedHidden ["r", "x"] ∉ ([] : List Event) ∧
    ((["r", "a.jpg"] : PathT).any fun part => strStarts part ".") = false :=
  ⟨C9_hidden.1 oNone mimeNone ["r"] ⟨true, true, false, true⟩ fs6
      ⟨["r", ".hidden.txt"], false⟩ rfl rfl (by decide),
   C9_hidden.2.1 oNone mimeNone ["r"] ⟨true, false, false, false⟩ [] [] []
      [] rfl rfl ["r", "x"],
   C9_hidden.2.2 oNone mimeNone ["r"] ⟨true, true, false, true⟩
      (enumerate fs6 ["r"] true) fs6 fs6
      [.wouldMove ["r", "a.jpg"] ["r", "Images", "jpg", "a.jpg"],
       .wouldMove ["r", "sub", "a.jpg"] ["r", "Images", "jpg", "a.jpg"]]
      ["r", "a.jpg"] ["r", "Images", "jpg", "a.jpg"] rfl rfl
      (Or.inr (by decide))⟩

end Organizer

namespace Organizer

lemma any_lift_of_isPrefixOf {t p : PathT} {f : String → Bool}
    (hpre : t.isPrefixOf p = true) (ht : t.any f = true) : p.any f = true := by
  obtain ⟨u, rfl⟩ := List.isPrefixOf_iff_prefix.mp hpre
  rw [List.any_append, ht]
  rfl

lemma orgFold_all_hidden {o : SysOracle} {m : Mime} {t : PathT} {ps : Params}
    (hsh : ps.skip_hidden = true) :
    ∀ (entries : List Entry) (fs : FS),
      (∀ e ∈ entries, e.isDir = true ∨
        (e.path.any fun part => strStarts part ".") = true) →
      ∃ evs, orgFold o m t ps fs entries = .ok (fs, evs) ∧
        ∀ ev ∈ evs, ∃ p, ev = Event.skippedHidden p := by
  intro entries
  induction entries with
  | nil =>
    intro fs _
    exact ⟨[], rfl, by simp⟩
  | cons e rest ih =>
    intro fs hall
    obtain ⟨evs2, hrest, hall2⟩ := ih fs (fun x hx => hall x (by simp [hx]))
    by_cases hdir : e.isDir = true
    · have hstep : orgStep o m t ps fs e = .ok (fs, []) := by
        unfold orgStep
        rw [if_pos hdir]
      refine ⟨evs2, ?_, hall2⟩
      simp [orgFold, hstep, hrest]
    · have hhid : (e.path.any fun part => strStarts part ".") = true := by
        rcases hall e (by simp) with hd | hh
        · exact absurd hd hdir
        · exact hh
      have hstep : orgStep o m t ps fs e =
          .ok (fs, [.skippedHidden e.path]) := by
        unfold orgStep
        rw [if_neg hdir, if_pos (by rw [hsh, hhid]; rfl)]
      refine ⟨.skippedHidden e.path :: evs2, ?_, ?_⟩
      · simp [orgFold, hstep, hrest]
      · intro ev hev
        rcases List.mem_cons.mp hev with he | he
        · exact ⟨e.path, he⟩
        · exact hall2 ev he

lemma enumerate_mem_isPrefixOf {fs : FS} {t : PathT} {r : Bool} {e : Entry}
    (he : e ∈ enumerate fs t r) : t.isPrefixOf e.path = true := by
  unfold enumerate at he
  by_cases hr : r = true
  · rw [if_pos hr] at he
    have := (List.mem_filter.mp he).2
    exact (Bool.and_eq_true _ _ ▸ this).1
  · rw [if_neg hr] at he
    have := (List.mem_filter.mp he).2
    exact (Bool.and_eq_true _ _ ▸ this).1

/-- C10: the hidden test runs over every component of the full path, so if
any component of the root itself begins with a dot, a skip-hidden run over a
valid root leaves the filesystem unchanged and every reported event is a
hidden skip. -/
theorem C10_hidden_root (o : SysOracle) (m : Mime) (fs : FS) (t : PathT)
    (ps : Params) (hsh : ps.skip_hidden = true)
    (hth : (t.any fun part => strStarts part ".") = true)
    (hvalid : isDirAt fs t = true) :
    ∃ evs, organize_directory o m fs t ps = .ok (fs, evs) ∧
      ∀ ev ∈ evs, ∃ p, ev = Event.skippedHidden p := by
  unfold organize_directory
  rw [if_pos hvalid]
  exact orgFold_all_hidden hsh (enumerate fs t ps.recursive) fs
    (fun e he => Or.inr
      (any_lift_of_isPrefixOf (enumerate_mem_isPrefixOf he) hth))

/-- Concrete snapshot under a hidden root directory `.d`. -/
def fs10 : FS := [⟨[".d"], true⟩, ⟨[".d", "a.jpg"], false⟩,
  ⟨[".d", "sub"], true⟩, ⟨[".d", "sub", "b.txt"], false⟩]

/-- Witness for C10: a run over the hidden root `.d` moves nothing and only
reports hidden skips. -/
theorem C10_witness :
    ∃ evs, organize_directory oNone mimeNone fs10 [".d"]
        ⟨true, false, false, true⟩ = .ok (fs10, evs) ∧
      ∀ ev ∈ evs, ∃ p, ev = Event.skippedHidden p :=
  C10_hidden_root oNone mimeNone fs10 [".d"] ⟨true, false, false, true⟩ rfl
    (by decide) (by decide)

end Organizer

namespace Organizer

lemma orgStep_dry {o : SysOracle} {m : Mime} {t : PathT} {ps : Params}
    {fs : FS} {e : Entry} (hdry : ps.dry_run = true) :
    ∃ evs, orgStep o m t ps fs e = .ok (fs, evs) := by
  unfold orgStep
  by_cases hdir : e.isDir = true
  · exact ⟨[], by rw [if_pos hdir]⟩
  · rw [if_neg hdir]
    by_cases hhid :
        (ps.skip_hidden && e.path.any fun part => strStarts part ".") = true
    · exact ⟨[.skippedHidden e.path], by rw [if_pos hhid]⟩
    · rw [if_neg hhid]
      by_cases horg : alreadyOrganized t e.path = true
      · exact ⟨[.skippedOrganized e.path], by rw [if_pos horg]⟩
      · rw [if_neg horg]
        dsimp only
        have hmv : move_file o fs e.path
            (t ++ [(get_category m e.path).1, (get_category m e.path).2,
              lastName e.path]) ps.dry_run ps.overwrite =
            .ok (fs, .wouldMove e.path (safe_destination fs
              (t ++ [(get_category m e.path).1, (get_category m e.path).2,
                lastName e.path]) ps.overwrite)) := by
          unfold move_file
          rw [if_pos hdry]
        rw [hmv]
        exact ⟨[.wouldMove e.path (safe_destination fs
          (t ++ [(get_category m e.path).1, (get_category m e.path).2,
            lastName e.path]) ps.overwrite)], rfl⟩

lemma orgFold_dry {o : SysOracle} {m : Mime} {t : PathT} {ps : Params}
    (hdry : ps.dry_run = true) :
    ∀ (entries : List Entry) (fs : FS),
      ∃ evs, orgFold o m t ps fs entries = .ok (fs, evs) := by
  intro entries
  induction entries with
  | nil => exact fun fs => ⟨[], rfl⟩
  | cons e rest ih =>
    intro fs
    obtain ⟨evs1, hstep⟩ := @orgStep_dry o m t ps fs e hdry
    obtain ⟨evs2, hrest⟩ := ih fs
    exact ⟨evs1 ++ evs2, by simp [orgFold, hstep, hrest]⟩

/-- C7: a dry run over a valid root performs no filesystem mutation: it
succeeds and returns the starting snapshot unchanged. -/
theorem C7_dry_run_frame (o : SysOracle) (m : Mime) (fs : FS) (t : PathT)
    (ps : Params) (hdry : ps.dry_run = true) (hvalid : isDirAt fs t = true) :
    ∃ evs, organize_directory o m fs t ps = .ok (fs, evs) := by
  unfold organize_directory
  rw [if_pos hvalid]
  exact orgFold_dry hdry (enumerate fs t ps.recursive) fs

/-- Witness for C7: the concrete dry run over fs6 returns fs6 unchanged. -/
theorem C7_witness :
    ∃ evs, organize_directory oNone mimeNone fs6 ["r"]
      ⟨true, true, false, true⟩ = .ok (fs6, evs) :=
  C7_dry_run_frame oNone mimeNone fs6 ["r"] ⟨true, true, false, true⟩ rfl
    (by decide)

end Organizer

namespace Organizer

lemma mkdirsGo_nofail {o : SysOracle} (hmk : ∀ dp, o.mkdirFail dp = false) :
    ∀ (ds : List PathT) (fs : FS), ∃ fs',
      mkdirsGo o fs ds = .ok fs' ∧ (∀ e ∈ fs, e ∈ fs') ∧
      (∀ q : PathT, pexists fs q = false → q ∉ ds →
        pexists fs' q = false) := by
  intro ds
  induction ds with
  | nil => exact fun fs => ⟨fs, rfl, fun e he => he, fun q hq _ => hq⟩
  | cons a rest ih =>
    intro fs
    by_cases hex : pexists fs a = true
    · obtain ⟨fs', h1, h2, h3⟩ := ih fs
      refine ⟨fs', ?_, h2, ?_⟩
      · simp only [mkdirsGo, if_pos hex]
        exact h1
      · intro q hq hnq
        exact h3 q hq (fun hmem => hnq (List.mem_cons_of_mem a hmem))
    · obtain ⟨fs', h1, h2, h3⟩ := ih (fs ++ [⟨a, true⟩])
      refine ⟨fs', ?_, ?_, ?_⟩
      · simp only [mkdirsGo, if_neg hex, hmk a]
        simpa using h1
      · intro e he
        exact h2 e (List.mem_append_left _ he)
      · intro q hq hnq
        have hqa : q ≠ a := fun h => hnq (h ▸ List.mem_cons_self a rest)
        have hq2 : pexists (fs ++ [⟨a, true⟩]) q = false := by
          simp only [pexists, List.any_append, Bool.or_eq_false_iff]
          refine ⟨by simpa [pexists] using hq, ?_⟩
          simp only [List.any_cons, List.any_nil, Bool.or_false]
          exact beq_eq_false_iff_ne.mpr (fun h => hqa h.symm)
        exact h3 q hq2 (fun hmem => hnq (List.mem_cons_of_mem a hmem))

lemma move_file_moveFail {o : SysOracle} {fs : FS} {src dest : PathT}
    {ow : Bool} (hmk : ∀ dp, o.mkdirFail dp = false)
    (hmf : o.moveFail src (safe_destination fs dest ow) = true) :
    ∃ fs', move_file o fs src dest false ow =
      .ok (fs', .moveFailed src (safe_destination fs dest ow)) ∧
      ∀ e ∈ fs, e ∈ fs' := by
  obtain ⟨fs1, h1, h2, _⟩ := mkdirsGo_nofail hmk
    (ancestors (safe_destination fs dest ow).dropLast) fs
  refine ⟨fs1, ?_, h2⟩
  unfold move_file
  rw [if_neg Bool.false_ne_true, h1]
  dsimp only
  rw [if_pos hmf]

lemma orgStep_nofail {o : SysOracle} {m : Mime} {t : PathT} {ps : Params}
    {fs : FS} {e : Entry} (hmk : ∀ dp, o.mkdirFail dp = false) :
    ∃ fs' evs, orgStep o m t ps fs e = .ok (fs', evs) ∧
      evs.length = (if e.isDir = true then 0 else 1) := by
  by_cases hdir : e.isDir = true
  · refine ⟨fs, [], ?_, by simp [hdir]⟩
    unfold orgStep
    rw [if_pos hdir]
  · rw [if_neg hdir]
    unfold orgStep
    rw [if_neg hdir]
    by_cases hhid :
        (ps.skip_hidden && e.path.any fun part => strStarts part ".") = true
    · exact ⟨fs, [.skippedHidden e.path], by rw [if_pos hhid], rfl⟩
    · rw [if_neg hhid]
      by_cases horg : alreadyOrganized t e.path = true
      · exact ⟨fs, [.skippedOrganized e.path], by rw [if_pos horg], rfl⟩
      · rw [if_neg horg]
        dsimp only
        by_cases hdry : ps.dry_run = true
        · have hmv : move_file o fs e.path
              (t ++ [(get_category m e.path).1, (get_category m e.path).2,
                lastName e.path]) ps.dry_run ps.overwrite =
              .ok (fs, .wouldMove e.path (safe_destination fs
                (t ++ [(get_category m e.path).1, (get_category m e.path).2,
                  lastName e.path]) ps.overwrite)) := by
            unfold move_file
            rw [if_pos hdry]
          rw [hmv]
          exact ⟨fs, [_], rfl, rfl⟩
        · have hdryf : ps.dry_run = false := by
            cases hb : ps.dry_run with
            | false => rfl
            | true => exact absurd hb hdry
          rw [hdryf]
          obtain ⟨fs1, h1, _, _⟩ := mkdirsGo_nofail hmk
            (ancestors ((safe_destination fs
              (t ++ [(get_category m e.path).1, (get_category m e.path).2,
                lastName e.path]) ps.overwrite)).dropLast) fs
          by_cases hmf : o.moveFail e.path (safe_destination fs
              (t ++ [(get_category m e.path).1, (get_category m e.path).2,
                lastName e.path]) ps.overwrite) = true
          · have hmv : move_file o fs e.path
                (t ++ [(get_category m e.path).1, (get_category m e.path).2,
                  lastName e.path]) false ps.overwrite =
                .ok (fs1, .moveFailed e.path (safe_destination fs
                  (t ++ [(get_category m e.path).1, (get_category m e.path).2,
                    lastName e.path]) ps.overwrite)) := by
              unfold move_file
              rw [if_neg Bool.false_ne_true, h1]
              dsimp only
              rw [if_pos hmf]
            rw [hmv]
            exact ⟨fs1, [_], rfl, rfl⟩
          · have hmv : move_file o fs e.path
                (t ++ [(get_category m e.path).1, (get_category m e.path).2,
                  lastName e.path]) false ps.overwrite =
                .ok (moveFS fs1 e.path (safe_destination fs
                    (t ++ [(get_category m e.path).1, (get_category m e.path).2,
                      lastName e.path]) ps.overwrite),
                  .moved e.path (safe_destination fs
                    (t ++ [(get_category m e.path).1, (get_category m e.path).2,
                      lastName e.path]) ps.overwrite)) := by
              unfold move_file
              rw [if_neg Bool.false_ne_true, h1]
              dsimp only
              rw [if_neg hmf]
            rw [hmv]
            exact ⟨_, [_], rfl, rfl⟩

lemma orgFold_nofail {o : SysOracle} {m : Mime} {t : PathT} {ps : Params}
    (hmk : ∀ dp, o.mkdirFail dp = false) :
    ∀ (entries : List Entry) (fs : FS),
      ∃ st evs, orgFold o m t ps fs entries = .ok (st, evs) ∧
        evs.length = (entries.filter fun e => !e.isDir).length := by
  intro entries
  induction entries with
  | nil => exact fun fs => ⟨fs, [], rfl, rfl⟩
  | cons e rest ih =>
    intro fs
    obtain ⟨fs1, evs1, hstep, hlen1⟩ := @orgStep_nofail o m t ps fs e hmk
    obtain ⟨st, evs2, hrest, hlen2⟩ := ih fs1
    refine ⟨st, evs1 ++ evs2, by simp [orgFold, hstep, hrest], ?_⟩
    rw [List.length_append, hlen1, hlen2]
    by_cases hdir : e.isDir = true
    · simp [List.filter, hdir]
    · have : e.isDir = false := by
        cases hb : e.isDir with
        | false => rfl
        | true => exact absurd hb hdir
      simp [List.filter, this]
      omega

end Organizer

namespace Organizer

/-- Oracle whose directory creation fails on `r/Images` (e.g. a permission
error raised by `mkdir`). -/
def o8 : SysOracle := ⟨fun dp => dp == ["r", "Images"], fun _ _ => false⟩

/-- Concrete snapshot with two movable files for the C8 counterexample. -/
def fs8 : FS := [⟨["r"], true⟩, ⟨["r", "a.jpg"], false⟩,
  ⟨["r", "b.jpg"], false⟩]

/-- C8 counterexample: a permission-style failure while preparing a move
(creating the destination's parent directories, which the source performs
outside its `try` block) aborts the whole run with an error that is not
InvalidTarget: the second candidate `b.jpg` is never processed, contrary to
the claim that such failures are caught and processing continues. -/
theorem C8_counterexample :
    organize_directory o8 mimeNone fs8 ["r"] ⟨true, false, false, true⟩ =
      .error (.mkdirFailure ["r", "Images"]) ∧
    Err.mkdirFailure ["r", "Images"] ≠ Err.invalidTarget :=
  ⟨rfl, by decide⟩

/-- C8 amended: a failure raised by the move primitive itself is caught,
reported, leaves the file in place, and the run continues (with directory
creation succeeding, the fold never aborts and reports one event per file
candidate); the InvalidTarget check aborts the whole operation before any
work; but a failure while creating the destination's parent directories is
not caught and aborts the run. -/
theorem C8_amended_containment :
    (∀ (o : SysOracle) (fs : FS) (src dest : PathT) (ow : Bool),
      (∀ dp, o.mkdirFail dp = false) →
      o.moveFail src (safe_destination fs dest ow) = true →
      ∃ fs', move_file o fs src dest false ow =
          .ok (fs', .moveFailed src (safe_destination fs dest ow)) ∧
        ∀ e ∈ fs, e ∈ fs') ∧
    (∀ (o : SysOracle) (m : Mime) (t : PathT) (ps : Params)
        (entries : List Entry) (fs : FS),
      (∀ dp, o.mkdirFail dp = false) →
      ∃ st evs, orgFold o m t ps fs entries = .ok (st, evs) ∧
        evs.length = (entries.filter fun e => !e.isDir).length) ∧
    (∀ (o : SysOracle) (m : Mime) (fs : FS) (t : PathT) (ps : Params),
      isDirAt fs t = false →
      organize_directory o m fs t ps = .error .invalidTarget) := by
  refine ⟨?_, ?_, ?_⟩
  · intro o fs src dest ow hmk hmf
    exact move_file_moveFail hmk hmf
  · intro o m t ps entries fs hmk
    exact orgFold_nofail hmk entries fs
  · intro o m fs t ps hv
    unfold organize_directory
    rw [if_neg (by rw [hv]; exact Bool.false_ne_true)]

/-- Oracle where every move raises but directory creation succeeds. -/
def oMF : SysOracle := ⟨fun _ => false, fun _ _ => true⟩

/-- Witness for the amended C8 at concrete inputs. -/
theorem C8_amended_witness :
    (∃ fs', move_file oMF [⟨["r", "x.txt"], false⟩] ["r", "x.txt"]
        ["r", "Documents", "txt", "x.txt"] false false =
        .ok (fs', .moveFailed ["r", "x.txt"]
          (safe_destination [⟨["r", "x.txt"], false⟩]
            ["r", "Documents", "txt", "x.txt"] false)) ∧
      ∀ e ∈ ([⟨["r", "x.txt"], false⟩] : FS), e ∈ fs') ∧
    (∃ st evs, orgFold oMF mimeNone ["r"] ⟨true, false, false, true⟩
        fs8 (enumerate fs8 ["r"] true) = .ok (st, evs) ∧
      evs.length = ((enumerate fs8 ["r"] true).filter
        fun e => !e.isDir).length) ∧
    organize_directory oMF mimeNone [] ["r"] ⟨true, false, false, true⟩ =
      .error .invalidTarget :=
  ⟨C8_amended_containment.1 oMF [⟨["r", "x.txt"], false⟩] ["r", "x.txt"]
      ["r", "Documents", "txt", "x.txt"] false (fun _ => rfl) rfl,
   C8_amended_containment.2.1 oMF mimeNone ["r"] ⟨true, false, false, true⟩
      (enumerate fs8 ["r"] true) fs8 (fun _ => rfl),
   C8_amended_containment.2.2 oMF mimeNone [] ["r"]
      ⟨true, false, false, true⟩ rfl⟩

end Organizer

namespace Organizer

lemma safe_destination_absent {fs : FS} {dst : PathT} {ow : Bool}
    (h : pexists fs dst = false) : safe_destination fs dst ow = dst := by
  simp [safe_destination, h]

lemma desiredDest_length (m : Mime) (t : PathT) (e : Entry) :
    (desiredDest m t e).length = t.length + 3 := by
  simp [desiredDest]

lemma ancestors_length_le {q dl : PathT} (h : q ∈ ancestors dl) :
    q.length ≤ dl.length := by
  unfold ancestors at h
  obtain ⟨k, _, rfl⟩ := List.mem_map.mp h
  simp [List.length_take]

lemma any_filter_false {l : FS} {p f : Entry → Bool}
    (h : l.any p = false) : (l.filter f).any p = false := by
  cases hb : (l.filter f).any p with
  | false => rfl
  | true =>
    exfalso
    obtain ⟨e, he, hp⟩ := List.any_eq_true.mp hb
    have : l.any p = true := List.any_eq_true.mpr
      ⟨e, List.mem_of_mem_filter he, hp⟩
    rw [h] at this
    exact Bool.noConfusion this

lemma moveFS_pexists_false {fs : FS} {src dst q : PathT}
    (hq : pexists fs q = false) (hne : q ≠ dst) :
    pexists (moveFS fs src dst) q = false := by
  simp only [moveFS, pexists, List.any_append, Bool.or_eq_false_iff]
  refine ⟨any_filter_false hq, ?_⟩
  simp only [List.any_cons, List.any_nil, Bool.or_false]
  exact beq_eq_false_iff_ne.mpr (fun h => hne h.symm)

lemma orgStep_skip_dir {o : SysOracle} {m : Mime} {t : PathT} {ps : Params}
    {fs : FS} {e : Entry} (hdir : e.isDir = true) :
    orgStep o m t ps fs e = .ok (fs, []) := by
  unfold orgStep
  rw [if_pos hdir]

lemma orgStep_skip_hidden {o : SysOracle} {m : Mime} {t : PathT}
    {ps : Params} {fs : FS} {e : Entry} (hdir : e.isDir = false)
    (hhid : (ps.skip_hidden && e.path.any fun part => strStarts part ".") =
      true) :
    orgStep o m t ps fs e = .ok (fs, [.skippedHidden e.path]) := by
  unfold orgStep
  rw [if_neg (by rw [hdir]; exact Bool.false_ne_true), if_pos hhid]

lemma orgStep_skip_org {o : SysOracle} {m : Mime} {t : PathT} {ps : Params}
    {fs : FS} {e : Entry} (hdir : e.isDir = false)
    (hhid : (ps.skip_hidden && e.path.any fun part => strStarts part ".") =
      false)
    (horg : alreadyOrganized t e.path = true) :
    orgStep o m t ps fs e = .ok (fs, [.skippedOrganized e.path]) := by
  unfold orgStep
  rw [if_neg (by rw [hdir]; exact Bool.false_ne_true),
    if_neg (by rw [hhid]; exact Bool.false_ne_true), if_pos horg]

lemma orgStep_eligible_dry {o : SysOracle} {m : Mime} {t : PathT}
    {ps : Params} {fs : FS} {e : Entry} (hdry : ps.dry_run = true)
    (hdir : e.isDir = false)
    (hhid : (ps.skip_hidden && e.path.any fun part => strStarts part ".") =
      false)
    (horg : alreadyOrganized t e.path = false) :
    orgStep o m t ps fs e = .ok (fs, [.wouldMove e.path
      (safe_destination fs (desiredDest m t e) ps.overwrite)]) := by
  unfold orgStep
  rw [if_neg (by rw [hdir]; exact Bool.false_ne_true),
    if_neg (by rw [hhid]; exact Bool.false_ne_true),
    if_neg (by rw [horg]; exact Bool.false_ne_true)]
  dsimp only
  have hmv : move_file o fs e.path
      (t ++ [(get_category m e.path).1, (get_category m e.path).2,
        lastName e.path]) ps.dry_run ps.overwrite =
      .ok (fs, .wouldMove e.path (safe_destination fs
        (t ++ [(get_category m e.path).1, (get_category m e.path).2,
          lastName e.path]) ps.overwrite)) := by
    unfold move_file
    rw [if_pos hdry]
  rw [hmv]
  rfl

lemma orgStep_eligible_live {o : SysOracle} {m : Mime} {t : PathT}
    {ps : Params} {st : FS} {e : Entry}
    (hmk : ∀ dp, o.mkdirFail dp = false)
    (hmv : ∀ s dp, o.moveFail s dp = false)
    (hdry : ps.dry_run = false) (hdir : e.isDir = false)
    (hhid : (ps.skip_hidden && e.path.any fun part => strStarts part ".") =
      false)
    (horg : alreadyOrganized t e.path = false) :
    ∃ fs1, orgStep o m t ps st e =
        .ok (moveFS fs1 e.path
          (safe_destination st (desiredDest m t e) ps.overwrite),
          [.moved e.path
            (safe_destination st (desiredDest m t e) ps.overwrite)]) ∧
      (∀ q : PathT, pexists st q = false →
        q ∉ ancestors
          ((safe_destination st (desiredDest m t e) ps.overwrite).dropLast) →
        pexists fs1 q = false) := by
  obtain ⟨fs1, h1, _, h3⟩ := mkdirsGo_nofail hmk
    (ancestors ((safe_destination st
      (t ++ [(get_category m e.path).1, (get_category m e.path).2,
        lastName e.path]) ps.overwrite)).dropLast) st
  refine ⟨fs1, ?_, h3⟩
  unfold orgStep
  rw [if_neg (by rw [hdir]; exact Bool.false_ne_true),
    if_neg (by rw [hhid]; exact Bool.false_ne_true),
    if_neg (by rw [horg]; exact Bool.false_ne_true)]
  dsimp only
  have hmf : move_file o st e.path
      (t ++ [(get_category m e.path).1, (get_category m e.path).2,
        lastName e.path]) ps.dry_run ps.overwrite =
      .ok (moveFS fs1 e.path (safe_destination st
          (t ++ [(get_category m e.path).1, (get_category m e.path).2,
            lastName e.path]) ps.overwrite),
        .moved e.path (safe_destination st
          (t ++ [(get_category m e.path).1, (get_category m e.path).2,
            lastName e.path]) ps.overwrite)) := by
    unfold move_file
    rw [hdry, if_neg Bool.false_ne_true, h1]
    dsimp only
    rw [if_neg (by rw [hmv]; exact Bool.false_ne_true)]
  rw [hmf]
  rfl

end Organizer

namespace Organizer

lemma orgFold_dry_live {o : SysOracle} {m : Mime} {t : PathT} {ps : Params}
    (hmk : ∀ dp, o.mkdirFail dp = false)
    (hmv : ∀ s dp, o.moveFail s dp = false) (fs0 : FS) :
    ∀ (entries : List Entry) (st : FS),
      ((entries.filter (eligibleFile t ps)).map (desiredDest m t)).Nodup →
      (∀ dd ∈ (entries.filter (eligibleFile t ps)).map (desiredDest m t),
        pexists fs0 dd = false) →
      (∀ dd ∈ (entries.filter (eligibleFile t ps)).map (desiredDest m t),
        pexists st dd = false) →
      ∃ st' evsL evsD,
        orgFold o m t { ps with dry_run := false } st entries =
          .ok (st', evsL) ∧
        orgFold o m t { ps with dry_run := true } fs0 entries =
          .ok (fs0, evsD) ∧
        decisionsOf evsL = decisionsOf evsD := by
  intro entries
  induction entries with
  | nil => exact fun st _ _ _ => ⟨st, [], [], rfl, rfl, rfl⟩
  | cons e rest ih =>
    intro st hnd habs0 habst
    by_cases hdir : e.isDir = true
    · have heli : eligibleFile t ps e = false := by simp [eligibleFile, hdir]
      have hf : (e :: rest).filter (eligibleFile t ps) =
          rest.filter (eligibleFile t ps) := by
        simp [List.filter_cons, heli]
      rw [hf] at hnd habs0 habst
      obtain ⟨st', evsL, evsD, h1, h2, h3⟩ := ih st hnd habs0 habst
      exact ⟨st', evsL, evsD,
        by simp [orgFold,
          @orgStep_skip_dir o m t { ps with dry_run := false } st e hdir,
          h1],
        by simp [orgFold,
          @orgStep_skip_dir o m t { ps with dry_run := true } fs0 e hdir,
          h2], h3⟩
    · have hdirf : e.isDir = false := by
        cases hb : e.isDir with
        | false => rfl
        | true => exact absurd hb hdir
      by_cases hhid :
          (ps.skip_hidden && e.path.any fun part => strStarts part ".") = true
      · have heli : eligibleFile t ps e = false := by
          simp [eligibleFile, hdirf, hhid]
        have hf : (e :: rest).filter (eligibleFile t ps) =
            rest.filter (eligibleFile t ps) := by
          simp [List.filter_cons, heli]
        rw [hf] at hnd habs0 habst
        obtain ⟨st', evsL, evsD, h1, h2, h3⟩ := ih st hnd habs0 habst
        exact ⟨st', .skippedHidden e.path :: evsL,
          .skippedHidden e.path :: evsD,
          by simp [orgFold,
            @orgStep_skip_hidden o m t { ps with dry_run := false } st e
              hdirf hhid, h1],
          by simp [orgFold,
            @orgStep_skip_hidden o m t { ps with dry_run := true } fs0 e
              hdirf hhid, h2],
          by simp [decisionsOf, h3]⟩
      · have hhidf :
            (ps.skip_hidden && e.path.any fun part => strStarts part ".") =
              false := by
          cases hb :
              (ps.skip_hidden && e.path.any fun part => strStarts part ".") with
          | false => rfl
          | true => exact absurd hb hhid
        by_cases horg : alreadyOrganized t e.path = true
        · have heli : eligibleFile t ps e = false := by
            simp [eligibleFile, hdirf, hhidf, horg]
          have hf : (e :: rest).filter (eligibleFile t ps) =
              rest.filter (eligibleFile t ps) := by
            simp [List.filter_cons, heli]
          rw [hf] at hnd habs0 habst
          obtain ⟨st', evsL, evsD, h1, h2, h3⟩ := ih st hnd habs0 habst
          exact ⟨st', .skippedOrganized e.path :: evsL,
            .skippedOrganized e.path :: evsD,
            by simp [orgFold,
              @orgStep_skip_org o m t { ps with dry_run := false } st e
                hdirf hhidf horg, h1],
            by simp [orgFold,
              @orgStep_skip_org o m t { ps with dry_run := true } fs0 e
                hdirf hhidf horg, h2],
            by simp [decisionsOf, h3]⟩
        · have horgf : alreadyOrganized t e.path = false := by
            cases hb : alreadyOrganized t e.path with
            | false => rfl
            | true => exact absurd hb horg
          have heli : eligibleFile t ps e = true := by
            simp [eligibleFile, hdirf, hhidf, horgf]
          have hf : (e :: rest).filter (eligibleFile t ps) =
              e :: rest.filter (eligibleFile t ps) := by
            simp [List.filter_cons, heli]
          rw [hf, List.map_cons] at hnd habs0 habst
          have hnd' := List.nodup_cons.mp hnd
          have habs0h := habs0 _ (List.mem_cons_self _ _)
          have habsth := habst _ (List.mem_cons_self _ _)
          have hsdL : safe_destination st (desiredDest m t e)
              ({ ps with dry_run := false } : Params).overwrite =
              desiredDest m t e := safe_destination_absent habsth
          have hsdD : safe_destination fs0 (desiredDest m t e)
              ({ ps with dry_run := true } : Params).overwrite =
              desiredDest m t e := safe_destination_absent habs0h
          obtain ⟨fs1, hstepL, hprop⟩ :=
            @orgStep_eligible_live o m t { ps with dry_run := false } st e
              hmk hmv rfl hdirf hhidf horgf
          rw [hsdL] at hstepL hprop
          have hstepD :=
            @orgStep_eligible_dry o m t { ps with dry_run := true } fs0 e rfl
              hdirf hhidf horgf
          rw [hsdD] at hstepD
          have habst' : ∀ dd ∈ (rest.filter (eligibleFile t ps)).map
              (desiredDest m t),
              pexists (moveFS fs1 e.path (desiredDest m t e)) dd = false := by
            intro dd hdd
            have h1 : pexists st dd = false :=
              habst dd (List.mem_cons_of_mem _ hdd)
            have h2 : dd ∉ ancestors ((desiredDest m t e).dropLast) := by
              intro hmem
              have hle := ancestors_length_le hmem
              have hlen : dd.length = t.length + 3 := by
                obtain ⟨e', _, rfl⟩ := List.mem_map.mp hdd
                exact desiredDest_length m t e'
              rw [List.length_dropLast, desiredDest_length] at hle
              omega
            have h3 : pexists fs1 dd = false := hprop dd h1 h2
            have h4 : dd ≠ desiredDest m t e := fun h => hnd'.1 (h ▸ hdd)
            exact moveFS_pexists_false h3 h4
          obtain ⟨st', evsL, evsD, h1, h2, h3⟩ :=
            ih (moveFS fs1 e.path (desiredDest m t e)) hnd'.2
              (fun dd hdd => habs0 dd (List.mem_cons_of_mem _ hdd)) habst'
          exact ⟨st', .moved e.path (desiredDest m t e) :: evsL,
            .wouldMove e.path (desiredDest m t e) :: evsD,
            by simp [orgFold, hstepL, h1],
            by simp [orgFold, hstepD, h2],
            by simp [decisionsOf, h3]⟩

end Organizer

namespace Organizer

/-- C6 counterexample: with `a.jpg` at the top level and `sub/a.jpg` nested,
the live pass resolves the second file to `a (1).jpg` (the first move
occupied the destination) while the dry run reports the unsuffixed
destination for both, so the decision sequences differ. -/
theorem C6_counterexample :
    runDecisions (organize_directory oNone mimeNone fs6 ["r"]
        ⟨true, false, false, true⟩) =
      [(["r", "a.jpg"], ["r", "Images", "jpg", "a.jpg"]),
       (["r", "sub", "a.jpg"], ["r", "Images", "jpg", "a (1).jpg"])] ∧
    runDecisions (organize_directory oNone mimeNone fs6 ["r"]
        ⟨true, true, false, true⟩) =
      [(["r", "a.jpg"], ["r", "Images", "jpg", "a.jpg"]),
       (["r", "sub", "a.jpg"], ["r", "Images", "jpg", "a.jpg"])] ∧
    runDecisions (organize_directory oNone mimeNone fs6 ["r"]
        ⟨true, false, false, true⟩) ≠
      runDecisions (organize_directory oNone mimeNone fs6 ["r"]
        ⟨true, true, false, true⟩) :=
  ⟨by decide, by decide, by decide⟩

/-- C6 amended: the dry and live passes always agree on the sources and the
desired destinations; the full `(source, resolved destination)` decision
sequences coincide whenever no system call fails and the desired
destinations of the eligible candidates are pairwise distinct and absent
from the starting snapshot (otherwise a live move can occupy a later
candidate's destination, which a dry run does not). -/
theorem C6_dry_live_agreement (o : SysOracle) (m : Mime) (fs : FS)
    (t : PathT) (ps : Params)
    (hmk : ∀ dp, o.mkdirFail dp = false)
    (hmv : ∀ s dp, o.moveFail s dp = false)
    (hvalid : isDirAt fs t = true)
    (hnd : (((enumerate fs t ps.recursive).filter
      (eligibleFile t ps)).map (desiredDest m t)).Nodup)
    (habs : ∀ dd ∈ ((enumerate fs t ps.recursive).filter
      (eligibleFile t ps)).map (desiredDest m t), pexists fs dd = false) :
    ∃ st' evsL evsD,
      organize_directory o m fs t { ps with dry_run := false } =
        .ok (st', evsL) ∧
      organize_directory o m fs t { ps with dry_run := true } =
        .ok (fs, evsD) ∧
      decisionsOf evsL = decisionsOf evsD := by
  obtain ⟨st', evsL, evsD, h1, h2, h3⟩ :=
    orgFold_dry_live hmk hmv fs (enumerate fs t ps.recursive) fs hnd habs habs
  refine ⟨st', evsL, evsD, ?_, ?_, h3⟩
  · unfold organize_directory
    rw [if_pos hvalid]
    exact h1
  · unfold organize_directory
    rw [if_pos hvalid]
    exact h2

/-- Concrete snapshot with two distinct movable files. -/
def fsC6 : FS := [⟨["r"], true⟩, ⟨["r", "a.jpg"], false⟩,
  ⟨["r", "b.txt"], false⟩]

/-- Witness for the amended C6: on a snapshot with distinct absent
destinations the live and dry passes agree. -/
theorem C6_amended_witness :
    ∃ st' evsL evsD,
      organize_directory oNone mimeNone fsC6 ["r"]
        ⟨true, false, false, true⟩ = .ok (st', evsL) ∧
      organize_directory oNone mimeNone fsC6 ["r"]
        ⟨true, true, false, true⟩ = .ok (fsC6, evsD) ∧
      decisionsOf evsL = decisionsOf evsD :=
  C6_dry_live_agreement oNone mimeNone fsC6 ["r"]
    ⟨true, false, false, true⟩ (fun _ => rfl) (fun _ _ => rfl) (by decide)
    (by decide) (by decide)

end Organizer
